import Mathlib

/-! libbf: section memory cache and instruction part types

A shallow embedding of `src/lib/mem_manager.c` (the section memory cache of a
`bin_file`) and of `enum insn_part_type` from `src/include/binary_file.h`,
followed by the properties proved about them.

Conventions of the embedding:

* `bfd_vma` and `bfd_size_type` are 64-bit unsigned; they are `Nat` here and
  the one sum the code forms (`s->vma + bfd_section_size`) is reduced
  modulo `2 ^ 64`.
* `int` is 32-bit two's complement; the narrowing `int size = ...` of
  `load_section` is `to_int`.
* a pointer that may be `NULL` is an `Option`; dereferencing `NULL` is the
  outcome `Fault.null_deref`.
* `xmalloc` "allocates memory without fail": a request that no allocator can
  meet (more than `PTRDIFF_MAX` bytes) ends the process inside libiberty, the
  outcome `Fault.xmalloc_failed`; any smaller request is taken to succeed.
* `printf` diagnostics are not modelled.
-/

namespace Libbf

/-! ## The BFD collaborator -/

/-- The fields of BFD's `asection` that `mem_manager.c` reads. `id` is BFD's
unique per-section sequence number; it stands for the identity of the
`asection *` pointer. `vma` is a `bfd_vma`, `size` a `bfd_size_type`. -/
structure asection where
  id : Nat
  vma : Nat
  size : Nat
deriving DecidableEq, Repr

/-- The BFD object behind a `bin_file`: its section list in the order
`bfd_map_over_sections` visits it, and the backend's
`bfd_get_section_contents (abfd, s, buffer, offset, count)`, which either
fills the buffer with `count` bytes (`some bytes`) or refuses (`none`). -/
structure bfd where
  sections : List asection
  get_section_contents : asection → Nat → Nat → Option (List Nat)

/-- The macro `bfd_section_size (abfd, s)`. -/
def bfd_section_size (s : asection) : Nat := s.size

/-- The macro `bfd_get_section_vma (abfd, s)`. -/
def bfd_get_section_vma (s : asection) : Nat := s.vma

/-- The call `bfd_map_over_sections (abfd, f, data)`: `f` is applied to every
section in list order, threading the user data through. -/
def bfd_map_over_sections {σ : Type} (abfd : bfd) (f : asection → σ → σ) (data : σ) : σ :=
  abfd.sections.foldl (fun d s => f s d) data

/-! ## Machine integers -/

/-- Conversion of a `bfd_size_type` to `int` (32-bit two's complement). -/
def to_int (n : Nat) : Int :=
  if n % 2 ^ 32 < 2 ^ 31 then ((n % 2 ^ 32 : Nat) : Int) else ((n % 2 ^ 32 : Nat) : Int) - 2 ^ 32

/-- Conversion of an `int` to `size_t` / `bfd_size_type` (64-bit unsigned). -/
def to_size_t (i : Int) : Nat := (i % 2 ^ 64).toNat

/-! ## Memory blocks and the hash table -/

/-- The `struct bf_mem_block` built by `load_section`: the four fields the
function assigns. `buffer_length` holds the value of the `int size` local. -/
structure bf_mem_block where
  section_ : asection
  buffer : List Nat
  buffer_length : Int
  buffer_vma : Nat
deriving DecidableEq, Repr

/-- Modelled from the spec: the `struct htable_entry` of `libkern/htable.h`,
which is not among the sources. An entry is the key it was added under
together with the block that embeds it (what `hash_entry` recovers). -/
structure htable_entry where
  key : Nat
  mem : bf_mem_block
deriving DecidableEq, Repr

/-- Modelled from the spec: the `struct htable` of `libkern/htable.h`, which
is not among the sources, as the sequence of its entries, newest first. -/
abbrev htable := List htable_entry

/-- Modelled from the spec: `htable_find` of `libkern/htable.h`, which is not
among the sources; the entry stored under the key, or `NULL`. -/
def htable_find (table : htable) (key : Nat) : Option htable_entry :=
  table.find? (fun e => e.key == key)

/-- Modelled from the spec: `htable_add` of `libkern/htable.h`, which is not
among the sources; links the entry into the table under the key. -/
def htable_add (table : htable) (mem : bf_mem_block) (key : Nat) : htable :=
  ⟨key, mem⟩ :: table

/-- Modelled from the spec: `htable_del_entry` of `libkern/htable.h`, which is
not among the sources; unlinks the entry from the table. -/
def htable_del_entry (table : htable) (entry : htable_entry) : htable :=
  table.erase entry

/-- The macro `hash_entry (entry, struct bf_mem_block, entry)`. -/
def hash_entry (entry : htable_entry) : bf_mem_block := entry.mem

/-- The part of `struct bin_file` the memory manager uses. -/
structure bin_file where
  abfd : bfd
  mem_table : htable

/-! ## mem_manager.c -/

/-- The `BFD_VMA_SECTION` request record. -/
structure BFD_VMA_SECTION where
  vma : Nat
  sec : Option asection
deriving DecidableEq, Repr

/-- One call of `bfd_get_section_contents`, as recorded in the read trace. -/
structure read_request where
  sec : asection
  offset : Nat
  count : Nat
deriving DecidableEq, Repr

/-- How a call can end without returning: a `NULL` pointer is dereferenced,
or `xmalloc` cannot allocate and ends the process. -/
inductive Fault where
  | null_deref
  | xmalloc_failed
deriving DecidableEq, Repr

/-- The call `xmalloc (size)` of libiberty, with `size` already converted to
`size_t`: it returns a buffer or does not return at all. A request of more
than `PTRDIFF_MAX = 2 ^ 63 - 1` bytes cannot be met by any allocator, so
`xmalloc` reports it and exits; a smaller request succeeds. `load_section`
only ever asks for less than `2 ^ 31` bytes (a non-negative `int`) or for at
least `2 ^ 64 - 2 ^ 31` (a negative one). -/
def xmalloc (size : Nat) : Except Fault Unit :=
  if size < 2 ^ 63 then .ok () else .error Fault.xmalloc_failed

/-- `load_section`: narrows the section size to `int`, allocates a buffer of
that size (`xmalloc (size)`, the `int` converted to `size_t`; the earlier
`xmalloc (sizeof (struct bf_mem_block))` is a small request), asks the
backend for that many bytes from offset 0 and, if it gets them, fills in a
new block. The second component of the result is the trace of backend reads
issued. -/
def load_section (abfd : bfd) (s : asection) :
    Except Fault (Option bf_mem_block × List read_request) :=
  let size : Int := to_int (bfd_section_size s)
  match xmalloc (to_size_t size) with
  | .error f => .error f
  | .ok _ =>
    let count : Nat := to_size_t size
    match abfd.get_section_contents s 0 count with
    | none => .ok (none, [⟨s, 0, count⟩])
    | some buffer =>
      .ok (some { section_ := s, buffer := buffer, buffer_length := size,
                  buffer_vma := bfd_get_section_vma s },
           [⟨s, 0, count⟩])

/-- `vma_in_section`: the callback handed to `bfd_map_over_sections`. `req` is
never `NULL` here (it is the address of a local of `section_from_vma`). The
sum is formed in 64-bit unsigned arithmetic. -/
def vma_in_section (s : asection) (req : BFD_VMA_SECTION) : BFD_VMA_SECTION :=
  if req.vma ≥ s.vma ∧ req.vma < (s.vma + bfd_section_size s) % 2 ^ 64 then
    { req with sec := some s }
  else req

/-- `section_from_vma`: `none` is the `NULL` return. -/
def section_from_vma (bf : bin_file) (vma : Nat) : Option asection :=
  (bfd_map_over_sections bf.abfd vma_in_section ⟨vma, none⟩).sec

/-- What `load_section_for_vma` hands back: the returned pointer (`none` for
`NULL`), the `bin_file` after the call and the backend reads it issued. -/
structure load_result where
  mem : Option bf_mem_block
  bf : bin_file
  reads : List read_request

/-- `load_section_for_vma`. Line 78 reads `s->vma` before any test of `s`, so
a `NULL` from `section_from_vma` is dereferenced. A call of `load_section`
that does not return ends this call too. -/
def load_section_for_vma (bf : bin_file) (vma : Nat) : Except Fault load_result :=
  match section_from_vma bf vma with
  | none => .error Fault.null_deref
  | some s =>
    let buffer_vma := bfd_get_section_vma s
    match htable_find bf.mem_table buffer_vma with
    | some entry => .ok ⟨some (hash_entry entry), bf, []⟩
    | none =>
      match load_section bf.abfd s with
      | .error f => .error f
      | .ok (none, reads) => .ok ⟨none, bf, reads⟩
      | .ok (some mem, reads) =>
        .ok ⟨some mem, { bf with mem_table := htable_add bf.mem_table mem mem.buffer_vma }, reads⟩

/-- The body of `htable_for_each_entry_safe` in `unload_all_sections`: `cur`
runs over the entries found at loop entry (its successor is saved first);
each is unlinked and its block freed. The last argument collects the freed
blocks in order. -/
def unload_loop : List htable_entry → htable → List bf_mem_block → htable × List bf_mem_block
  | [], table, freed => (table, freed)
  | cur :: n, table, freed =>
    unload_loop n (htable_del_entry table cur) (freed ++ [hash_entry cur])

/-- `unload_all_sections`: the `bin_file` afterwards and the blocks freed. -/
def unload_all_sections (bf : bin_file) : bin_file × List bf_mem_block :=
  let r := unload_loop bf.mem_table bf.mem_table []
  ({ bf with mem_table := r.1 }, r.2)

/-- The cache states a `bin_file` over `abfd` can be in: the empty
`mem_table` it starts with, and whatever calls of `load_section_for_vma`
(those that return) and `unload_all_sections` make of it. -/
inductive Reachable (abfd : bfd) : bin_file → Prop
  | init : Reachable abfd ⟨abfd, []⟩
  | load {bf : bin_file} {vma : Nat} {out : load_result} :
      Reachable abfd bf → load_section_for_vma bf vma = .ok out → Reachable abfd out.bf
  | unload {bf : bin_file} : Reachable abfd bf → Reachable abfd (unload_all_sections bf).1

/-- The invariant the cache of a `bin_file` over `abfd` keeps: every entry is
keyed by the `buffer_vma` of its block, which is the `vma` of the block's
section; that section is one of the object's; the block's length is the
section size as narrowed to `int`; and no key occurs twice. -/
def cache_inv (abfd : bfd) (bf : bin_file) : Prop :=
  bf.abfd = abfd ∧
  (∀ e ∈ bf.mem_table,
    e.key = e.mem.buffer_vma ∧ e.mem.buffer_vma = e.mem.section_.vma ∧
    e.mem.section_ ∈ abfd.sections ∧ e.mem.buffer_length = to_int e.mem.section_.size) ∧
  (bf.mem_table.map (fun e => e.key)).Nodup

/-! ## Concrete objects used to exercise the model -/

/-- A backend that serves every request: byte `i` of section `s` is
`(s.id + i) % 256`. -/
def serve_all (s : asection) (offset count : Nat) : Option (List Nat) :=
  some ((List.range count).map (fun i => (s.id + offset + i) % 256))

/-- A backend that refuses the section with id 5 and serves the others. -/
def refuse_one (s : asection) (offset count : Nat) : Option (List Nat) :=
  if s.id = 5 then none else serve_all s offset count

/-- A 32-byte section at `0x1000`. -/
def sec_a : asection := ⟨0, 0x1000, 0x20⟩

/-- A 16-byte section that shares the load address of `sec_a`. -/
def sec_b : asection := ⟨1, 0x1000, 0x10⟩

/-- A 16-byte section at `0x2000`. -/
def sec_c : asection := ⟨5, 0x2000, 0x10⟩

/-- A section of `2 ^ 32 + 5` bytes (a large `.bss`) at `0x400000`. -/
def sec_big : asection := ⟨2, 0x400000, 2 ^ 32 + 5⟩

/-- A 16-byte section that ends exactly at the top of the 64-bit address space. -/
def sec_top : asection := ⟨3, 2 ^ 64 - 16, 16⟩

/-- An empty section at `0x3000`. -/
def sec_empty : asection := ⟨4, 0x3000, 0⟩

/-- An object with three sections at distinct load addresses, one of them
empty. -/
def bfd_plain : bfd := ⟨[sec_a, sec_c, sec_empty], serve_all⟩

/-- The same object with a backend that refuses `sec_c`. -/
def bfd_refusing : bfd := ⟨[sec_a, sec_c, sec_empty], refuse_one⟩

/-- An object whose sections `sec_a` and `sec_b` share a load address. -/
def bfd_shared : bfd := ⟨[sec_a, sec_b], serve_all⟩

/-- An object with the large section. -/
def bfd_big : bfd := ⟨[sec_big], serve_all⟩

/-- An object with the section at the top of the address space. -/
def bfd_top : bfd := ⟨[sec_top], serve_all⟩

/-- The block `load_section` builds for `sec_a` from `serve_all`. -/
def block_a : bf_mem_block :=
  ⟨sec_a, (List.range 0x20).map (fun i => i % 256), 0x20, 0x1000⟩

/-- The block `load_section` builds for `sec_b` from `serve_all`. -/
def block_b : bf_mem_block :=
  ⟨sec_b, (List.range 0x10).map (fun i => (1 + i) % 256), 0x10, 0x1000⟩

/-- The cache of `bfd_shared` after `load_section_for_vma` at `0x1005`, which
locates `sec_b`. -/
def bf_shared_loaded : bin_file := ⟨bfd_shared, [⟨0x1000, block_b⟩]⟩

/-- The cache of `bfd_plain` after `load_section_for_vma` at `0x1005`, which
locates `sec_a`. -/
def bf_plain_loaded : bin_file := ⟨bfd_plain, [⟨0x1000, block_a⟩]⟩

/-- The block `load_section` builds for `sec_c` from `serve_all`. -/
def block_c : bf_mem_block :=
  ⟨sec_c, (List.range 0x10).map (fun i => (5 + i) % 256), 0x10, 0x2000⟩

/-- The cache of `bfd_plain` after loads at `0x1005` and then `0x2008`. -/
def bf_plain_both : bin_file := ⟨bfd_plain, [⟨0x2000, block_c⟩, ⟨0x1000, block_a⟩]⟩

/-! ## Instruction part types (binary_file.h) -/

/-- The enumeration `insn_part_type`. -/
inductive insn_part_type where
  | insn_part_mnemonic
  | insn_part_secondary_mnemonic
  | insn_part_operand
  | insn_part_comma
  | insn_part_comment_indicator
  | insn_part_comment_contents
deriving DecidableEq, Repr

/-- The integer value the header gives each enumerator. -/
def insn_part_type.value : insn_part_type → Nat
  | .insn_part_mnemonic => 1
  | .insn_part_secondary_mnemonic => 2
  | .insn_part_operand => 4
  | .insn_part_comma => 8
  | .insn_part_comment_indicator => 16
  | .insn_part_comment_contents => 32

/-- A combination of part-type flags as held in
`disasm_context.part_types_expected`: the bitwise OR of the listed values. -/
def part_types_or (parts : List insn_part_type) : Nat :=
  parts.foldl (fun acc p => acc ||| p.value) 0

/-- The condition of the `if` in `vma_in_section`, as a Boolean test of one
section against a VMA. -/
def vma_matches (s : asection) (vma : Nat) : Bool :=
  decide (vma ≥ s.vma ∧ vma < (s.vma + bfd_section_size s) % 2 ^ 64)

/-! ## section.c -/

/-- The ELF section header `Elf_Shdr` of libelf, copied by value into a
section. -/
structure Elf_Shdr where
  sh_name : Nat
  sh_type : Nat
  sh_flags : Nat
  sh_addr : Nat
  sh_offset : Nat
  sh_size : Nat
  sh_link : Nat
  sh_info : Nat
  sh_addralign : Nat
  sh_entsize : Nat
deriving DecidableEq, Repr

/-- A `struct section` as reached through a `struct section *`: `addr` is the
address of the object (what pointer equality compares), `name`, `idx` and
`shdr` are its data members. Its link members are kept apart
(`section_links`): the chain a section is on is the state of the table. -/
structure section_ where
  addr : Nat
  name : String
  idx : Int
  shdr : Elf_Shdr
deriving DecidableEq, Repr

/-- The two `struct list_head` members of a `struct section`. -/
inductive list_member where
  | sections
  | segment_entry
deriving DecidableEq, Repr

/-- A `struct list_head *`: the address of a list-head member of the section
object at `addr`. -/
structure list_head_ptr where
  addr : Nat
  member : list_member
deriving DecidableEq, Repr

/-- A `struct list_head`: its `next` and `prev` pointers. -/
structure list_head where
  next : list_head_ptr
  prev : list_head_ptr
deriving DecidableEq, Repr

/-- A `struct hlist_node`: `next` points to the following node's section,
`pprev` to the link that points at this node; `none` is `NULL`. -/
structure hlist_node where
  next : Option Nat
  pprev : Option Nat
deriving DecidableEq, Repr

/-- The link members of a `struct section`. -/
structure section_links where
  sections : list_head
  segment_entry : list_head
  section_hash : hlist_node
deriving DecidableEq, Repr

/-- Modelled from the spec: the macro `INIT_LIST_HEAD` of the list header,
which is not among the sources; it makes the head point at itself both ways,
the empty list. -/
def INIT_LIST_HEAD (ptr : list_head_ptr) : list_head := ⟨ptr, ptr⟩

/-- Modelled from the spec: the macro `INIT_HLIST_NODE` of the list header,
which is not among the sources; it clears both pointers of the node. -/
def INIT_HLIST_NODE : hlist_node := ⟨none, none⟩

/-- Modelled from the spec: `list_empty` of the list header, which is not
among the sources; a head is empty when its `next` is the head itself. -/
def list_empty (head : list_head_ptr) (l : list_head) : Bool := l.next == head

/-- Modelled from the spec: `hlist_unhashed` of the list header, which is not
among the sources; a node is on no chain when its `pprev` is `NULL`. -/
def hlist_unhashed (h : hlist_node) : Bool := h.pprev.isNone

/-- Modelled from the spec: a `struct hlist_head` of the list header, which is
not among the sources, as the chain of sections hanging off it, first node
first. -/
abbrev hlist_head := List section_

/-- Modelled from the spec: the macro `INIT_HLIST_HEAD` of the list header,
which is not among the sources; the empty chain. -/
def INIT_HLIST_HEAD : hlist_head := []

/-- Modelled from the spec: `hlist_add_head` of the list header, which is not
among the sources; links the node in front of the chain. -/
def hlist_add_head (scn : section_) (head : hlist_head) : hlist_head := scn :: head

/-- The `struct section_table`: the array of `sectionhash_size` chain heads
that `section_table_init` allocates. The constant `sectionhash_size` and the
macro `section_hashfn` come from `section.h`, which is not among the sources;
both are parameters here, `section_hashfn` taking a name (its characters) to
an index into the array. -/
structure section_table (sectionhash_size : Nat) where
  section_hash : Fin sectionhash_size → hlist_head

/-- `section_init`: the data members and the link members it leaves in the
object `s` points to. -/
def section_init (s : section_) (name : String) (idx : Int) (shdr : Elf_Shdr) :
    section_ × section_links :=
  ({ s with name := name, idx := idx, shdr := shdr },
   { sections := INIT_LIST_HEAD ⟨s.addr, .sections⟩,
     segment_entry := INIT_LIST_HEAD ⟨s.addr, .segment_entry⟩,
     section_hash := INIT_HLIST_NODE })

/-- `section_find`: walks the chain of the bucket the name hashes to and
returns the first section whose name compares equal (`strcmp (...) == 0`);
`none` is `NULL`. -/
def section_find {sectionhash_size : Nat} (section_hashfn : String → Fin sectionhash_size)
    (table : section_table sectionhash_size) (name : String) : Option section_ :=
  let head := table.section_hash (section_hashfn name)
  head.find? (fun s => s.name == name)

/-- `section_add`: returns early when the bucket already has a section of
that name, otherwise links `scn` at the head of the bucket. -/
def section_add {sectionhash_size : Nat} (section_hashfn : String → Fin sectionhash_size)
    (table : section_table sectionhash_size) (scn : section_) :
    section_table sectionhash_size :=
  let head := table.section_hash (section_hashfn scn.name)
  match head.find? (fun s => s.name == scn.name) with
  | some _ => table
  | none =>
    ⟨Function.update table.section_hash (section_hashfn scn.name) (hlist_add_head scn head)⟩

/-- `section_table_init`: every head of the freshly allocated array is
initialised empty. -/
def section_table_init (sectionhash_size : Nat) : section_table sectionhash_size :=
  ⟨fun _ => INIT_HLIST_HEAD⟩

/-- The table that `section_table_init` followed by `section_add` of the
listed sections, in order, builds. -/
def section_table_of {sectionhash_size : Nat} (section_hashfn : String → Fin sectionhash_size)
    (adds : List section_) : section_table sectionhash_size :=
  adds.foldl (section_add section_hashfn) (section_table_init sectionhash_size)

/-! ### Concrete tables -/

/-- A hash function into four buckets: the length of the name modulo 4. -/
def hash_len4 (name : String) : Fin 4 := ⟨name.length % 4, Nat.mod_lt _ (by decide)⟩

/-- An all-zero section header. -/
def shdr_zero : Elf_Shdr := ⟨0, 0, 0, 0, 0, 0, 0, 0, 0, 0⟩

/-- `.text`, at address `0x100`. -/
def scn_text : section_ := ⟨0x100, ".text", 1, shdr_zero⟩

/-- `.data`, at address `0x200`; its name collides with `.text` under
`hash_len4`. -/
def scn_data : section_ := ⟨0x200, ".data", 2, shdr_zero⟩

/-- A second object named `.text`, at address `0x300`. -/
def scn_text2 : section_ := ⟨0x300, ".text", 7, shdr_zero⟩

/-- `.bss`, at address `0x400`. -/
def scn_bss : section_ := ⟨0x400, ".bss", 3, shdr_zero⟩

/-- An object whose sections `sec_a` (first) and `sec_b` both cover
`[0x1000, 0x1010)`, followed by `sec_c`. -/
def bfd_overlap : bfd := ⟨[sec_a, sec_b, sec_c], serve_all⟩

/-- A backend that refuses the section with id 0 and serves the others. -/
def refuse_first (s : asection) (offset count : Nat) : Option (List Nat) :=
  if s.id = 0 then none else serve_all s offset count

/-- The object `bfd_shared` with a backend that refuses `sec_a`. -/
def bfd_shared_refusing : bfd := ⟨[sec_a, sec_b], refuse_first⟩

/-- The cache of `bfd_shared_refusing` after `load_section_for_vma` at
`0x1005`, which locates `sec_b`. -/
def bf_shared_refusing_loaded : bin_file := ⟨bfd_shared_refusing, [⟨0x1000, block_b⟩]⟩

/-- A 32-byte section that is not loaded, at address 0. -/
def sec_note1 : asection := ⟨6, 0, 0x20⟩

/-- A 48-byte section that is not loaded, also at address 0. -/
def sec_note2 : asection := ⟨7, 0, 0x30⟩

/-- A section of `2 ^ 31` bytes at `0x800000`. -/
def sec_2g : asection := ⟨8, 0x800000, 2 ^ 31⟩

/-- An ordinary object: `sec_a`, two sections that share address 0, and the
large `sec_big`. -/
def bfd_mixed : bfd := ⟨[sec_a, sec_note1, sec_note2, sec_big], serve_all⟩

/-- The cache of `bfd_mixed` after `load_section_for_vma` at `0x1005`, which
locates `sec_a`. -/
def bf_mixed_loaded : bin_file := ⟨bfd_mixed, [⟨0x1000, block_a⟩]⟩

/-- A 24-byte section at `2 ^ 64 - 32`; it ends below `2 ^ 64` and overlaps
`sec_top`. -/
def sec_high : asection := ⟨9, 2 ^ 64 - 32, 24⟩

/-- An object with `sec_high` followed by `sec_top`. -/
def bfd_high : bfd := ⟨[sec_high, sec_top], serve_all⟩

/-! ## Locating a section -/

theorem vma_in_section_vma (s : asection) (req : BFD_VMA_SECTION) :
    (vma_in_section s req).vma = req.vma := by
  unfold vma_in_section
  split <;> rfl

theorem scan_vma (l : List asection) (req : BFD_VMA_SECTION) :
    (l.foldl (fun d s => vma_in_section s d) req).vma = req.vma := by
  induction l generalizing req with
  | nil => rfl
  | cons a t ih => simp only [List.foldl_cons]; rw [ih, vma_in_section_vma]

/-- Whatever the scan leaves in `req.sec` was there before or is a section of
the list that passed the test of `vma_in_section`. -/
theorem scan_sec_some (l : List asection) (req : BFD_VMA_SECTION) (s : asection)
    (h : (l.foldl (fun d s => vma_in_section s d) req).sec = some s) :
    req.sec = some s ∨
      (s ∈ l ∧ s.vma ≤ req.vma ∧ req.vma < (s.vma + s.size) % 2 ^ 64) := by
  induction l generalizing req with
  | nil => exact Or.inl h
  | cons a t ih =>
    simp only [List.foldl_cons] at h
    rcases ih _ h with h1 | ⟨hm, h2⟩
    · unfold vma_in_section at h1
      split at h1
      · rename_i hc
        simp only [Option.some.injEq] at h1
        subst h1
        exact Or.inr ⟨List.mem_cons_self _ _, hc⟩
      · exact Or.inl h1
    · rw [vma_in_section_vma] at h2
      exact Or.inr ⟨List.mem_cons_of_mem _ hm, h2⟩

/-- The scan ends with `req.sec` still `NULL` exactly when it started so and no
section of the list passed the test of `vma_in_section`. -/
theorem scan_sec_none (l : List asection) (req : BFD_VMA_SECTION) :
    (l.foldl (fun d s => vma_in_section s d) req).sec = none ↔
      req.sec = none ∧
        ∀ s ∈ l, ¬ (s.vma ≤ req.vma ∧ req.vma < (s.vma + s.size) % 2 ^ 64) := by
  induction l generalizing req with
  | nil => simp
  | cons a t ih =>
    simp only [List.foldl_cons, List.mem_cons, forall_eq_or_imp]
    rw [ih, vma_in_section_vma]
    unfold vma_in_section bfd_section_size
    by_cases hc : req.vma ≥ a.vma ∧ req.vma < (a.vma + a.size) % 2 ^ 64
    · rw [if_pos hc]
      constructor
      · rintro ⟨h, _⟩
        cases h
      · rintro ⟨_, h, _⟩
        exact absurd hc h
    · rw [if_neg hc]
      constructor
      · rintro ⟨h, ht⟩
        exact ⟨h, hc, ht⟩
      · rintro ⟨h, _, ht⟩
        exact ⟨h, ht⟩

theorem section_from_vma_some (bf : bin_file) (vma : Nat) (s : asection)
    (h : section_from_vma bf vma = some s) :
    s ∈ bf.abfd.sections ∧ s.vma ≤ vma ∧ vma < (s.vma + s.size) % 2 ^ 64 := by
  unfold section_from_vma bfd_map_over_sections at h
  rcases scan_sec_some _ _ s h with h1 | h1
  · simp at h1
  · exact h1

theorem section_from_vma_none (bf : bin_file) (vma : Nat) :
    section_from_vma bf vma = none ↔
      ∀ s ∈ bf.abfd.sections, ¬ (s.vma ≤ vma ∧ vma < (s.vma + s.size) % 2 ^ 64) := by
  unfold section_from_vma bfd_map_over_sections
  rw [scan_sec_none]
  simp

/-! ## Case analysis of the load path -/

theorem htable_find_some (table : htable) (key : Nat) (e : htable_entry)
    (h : htable_find table key = some e) : e ∈ table ∧ e.key = key := by
  unfold htable_find at h
  refine ⟨List.mem_of_find?_eq_some h, ?_⟩
  have := List.find?_some h
  simpa using this

theorem htable_find_none (table : htable) (key : Nat) :
    htable_find table key = none ↔ ∀ e ∈ table, e.key ≠ key := by
  unfold htable_find
  simp

theorem to_size_t_lt (i : Int) : to_size_t i < 2 ^ 64 := by
  unfold to_size_t
  omega

/-- A negative `int` converted to `size_t` is more than `xmalloc` can get. -/
theorem xmalloc_of_neg (i : Int) (h : i < 0) (hlo : -(2 ^ 31) ≤ i) :
    xmalloc (to_size_t i) = .error Fault.xmalloc_failed := by
  unfold xmalloc to_size_t
  rw [if_neg (by omega)]

theorem xmalloc_of_nonneg (i : Int) (h : 0 ≤ i) (hhi : i < 2 ^ 31) :
    xmalloc (to_size_t i) = .ok () := by
  unfold xmalloc to_size_t
  rw [if_pos (by omega)]

theorem to_int_bounds (n : Nat) : -(2 ^ 31) ≤ to_int n ∧ to_int n < 2 ^ 31 := by
  unfold to_int
  split <;> omega

/-- How `load_section` ends, by the sign of the narrowed size. -/
theorem load_section_eq (abfd : bfd) (s : asection) :
    load_section abfd s
      = if to_int s.size < 0 then .error Fault.xmalloc_failed
        else match abfd.get_section_contents s 0 (to_size_t (to_int s.size)) with
          | none => .ok (none, [⟨s, 0, to_size_t (to_int s.size)⟩])
          | some buffer =>
            .ok (some ⟨s, buffer, to_int s.size, s.vma⟩,
                 [⟨s, 0, to_size_t (to_int s.size)⟩]) := by
  unfold load_section bfd_section_size bfd_get_section_vma
  dsimp only
  obtain ⟨hlo, hhi⟩ := to_int_bounds s.size
  by_cases hneg : to_int s.size < 0
  · rw [if_pos hneg, xmalloc_of_neg _ hneg hlo]
  · rw [if_neg hneg, xmalloc_of_nonneg _ (by omega) hhi]

/-- What a block returned by `load_section` holds. -/
theorem load_section_some (abfd : bfd) (s : asection) (m : bf_mem_block)
    (reads : List read_request)
    (h : load_section abfd s = .ok (some m, reads)) :
    m.section_ = s ∧ m.buffer_vma = s.vma ∧ m.buffer_length = to_int s.size ∧
      0 ≤ to_int s.size ∧
      abfd.get_section_contents s 0 (to_size_t (to_int s.size)) = some m.buffer := by
  rw [load_section_eq] at h
  by_cases hneg : to_int s.size < 0
  · rw [if_pos hneg] at h
    cases h
  · rw [if_neg hneg] at h
    cases hb : abfd.get_section_contents s 0 (to_size_t (to_int s.size)) with
    | none => simp [hb] at h
    | some buffer =>
      simp only [hb, Except.ok.injEq, Prod.mk.injEq, Option.some.injEq] at h
      obtain ⟨h1, _⟩ := h
      subst h1
      exact ⟨rfl, rfl, rfl, by omega, rfl⟩

/-- The three ways `load_section_for_vma` returns: a hit, a failed read, a
successful miss. -/
theorem load_section_for_vma_ok (bf : bin_file) (vma : Nat) (out : load_result)
    (h : load_section_for_vma bf vma = .ok out) :
    ∃ s, section_from_vma bf vma = some s ∧
      ((∃ e, htable_find bf.mem_table s.vma = some e ∧ out = ⟨some e.mem, bf, []⟩) ∨
       (htable_find bf.mem_table s.vma = none ∧
          ∃ reads, load_section bf.abfd s = .ok (none, reads) ∧ out = ⟨none, bf, reads⟩) ∨
       (htable_find bf.mem_table s.vma = none ∧
          ∃ m reads, load_section bf.abfd s = .ok (some m, reads) ∧
            out = ⟨some m, ⟨bf.abfd, ⟨m.buffer_vma, m⟩ :: bf.mem_table⟩, reads⟩)) := by
  unfold load_section_for_vma at h
  cases hs : section_from_vma bf vma with
  | none => simp [hs] at h
  | some s =>
    refine ⟨s, rfl, ?_⟩
    simp only [hs, bfd_get_section_vma] at h
    cases hf : htable_find bf.mem_table s.vma with
    | some e =>
      simp only [hf, Except.ok.injEq] at h
      exact Or.inl ⟨e, rfl, h.symm⟩
    | none =>
      simp only [hf] at h
      cases hl : load_section bf.abfd s with
      | error f =>
        rw [hl] at h
        cases h
      | ok r =>
        obtain ⟨r, reads⟩ := r
        rw [hl] at h
        cases r with
        | none =>
          simp only [Except.ok.injEq] at h
          exact Or.inr (Or.inl ⟨rfl, reads, rfl, h.symm⟩)
        | some m =>
          simp only [Except.ok.injEq, htable_add] at h
          exact Or.inr (Or.inr ⟨rfl, m, reads, rfl, h.symm⟩)

/-! ## Unloading and the cache invariant -/

theorem unload_loop_self (l : List htable_entry) (freed : List bf_mem_block) :
    unload_loop l l freed = ([], freed ++ l.map hash_entry) := by
  induction l generalizing freed with
  | nil => simp [unload_loop]
  | cons a t ih =>
    simp only [unload_loop, htable_del_entry, List.erase_cons_head, ih, List.map_cons,
      List.append_assoc, List.singleton_append]

theorem unload_all_sections_eq (bf : bin_file) :
    unload_all_sections bf = (⟨bf.abfd, []⟩, bf.mem_table.map hash_entry) := by
  simp [unload_all_sections, unload_loop_self]

theorem reachable_cache_inv (abfd : bfd) (bf : bin_file) (h : Reachable abfd bf) :
    cache_inv abfd bf := by
  induction h with
  | init => exact ⟨rfl, by simp, by simp⟩
  | @load bf vma out _ hload ih =>
    obtain ⟨habfd, hent, hnd⟩ := ih
    obtain ⟨s, hs, hcase⟩ := load_section_for_vma_ok bf vma out hload
    rcases hcase with ⟨e, _, rfl⟩ | ⟨_, _, _, rfl⟩ | ⟨hmiss, m, reads, hm, rfl⟩
    · exact ⟨habfd, hent, hnd⟩
    · exact ⟨habfd, hent, hnd⟩
    · obtain ⟨h1, h2, h3, _, _⟩ := load_section_some bf.abfd s m reads hm
      have hsec := (section_from_vma_some bf vma s hs).1
      refine ⟨habfd, ?_, ?_⟩
      · intro e he
        rcases List.mem_cons.mp he with rfl | he
        · refine ⟨rfl, ?_, ?_, ?_⟩
          · simp only [h2, h1]
          · simpa only [h1, ← habfd] using hsec
          · simp only [h3, h1]
        · exact hent e he
      · simp only [List.map_cons, List.nodup_cons]
        refine ⟨?_, hnd⟩
        intro hmem
        obtain ⟨e, he, hk⟩ := List.mem_map.mp hmem
        rw [h2] at hk
        exact (htable_find_none _ _).mp hmiss e he hk
  | @unload bf _ ih =>
    rw [unload_all_sections_eq]
    exact ⟨ih.1, by simp, by simp⟩

/-! ## The block returned by a load -/

theorem to_int_of_lt (n : Nat) (h : n < 2 ^ 31) : to_int n = (n : Int) := by
  unfold to_int
  have h1 : n % 2 ^ 32 = n := Nat.mod_eq_of_lt (by omega)
  rw [h1, if_pos h]

theorem bf_shared_loaded_reachable : Reachable bfd_shared bf_shared_loaded :=
  @Reachable.load bfd_shared ⟨bfd_shared, []⟩ 0x1005
    ⟨some block_b, bf_shared_loaded, [⟨sec_b, 0, 0x10⟩]⟩ Reachable.init rfl

theorem bf_plain_loaded_reachable : Reachable bfd_plain bf_plain_loaded :=
  @Reachable.load bfd_plain ⟨bfd_plain, []⟩ 0x1005
    ⟨some block_a, bf_plain_loaded, [⟨sec_a, 0, 0x20⟩]⟩ Reachable.init rfl

theorem bf_mixed_loaded_reachable : Reachable bfd_mixed bf_mixed_loaded :=
  @Reachable.load bfd_mixed ⟨bfd_mixed, []⟩ 0x1005
    ⟨some block_a, bf_mixed_loaded, [⟨sec_a, 0, 0x20⟩]⟩ Reachable.init rfl

/-- C1, as amended: in a cache state reachable from the empty table, when the
section `s` that `section_from_vma` locates for `vma` shares its load address
with no other section of the object and is smaller than `2 ^ 31` bytes, a
block returned by `load_section_for_vma bf vma` is the block of `s`, and its
range `[buffer_vma, buffer_vma + buffer_length)`, which is the section's
`[vma, vma + size)`, contains `vma`. Nothing is asked of the other sections. -/
theorem load_section_for_vma_encloses (abfd : bfd) (bf : bin_file) (vma : Nat)
    (out : load_result) (m : bf_mem_block) (s : asection)
    (hreach : Reachable abfd bf)
    (hs : section_from_vma bf vma = some s)
    (hdistinct : ∀ s2 ∈ abfd.sections, s2.vma = s.vma → s2 = s)
    (hsize : s.size < 2 ^ 31)
    (hload : load_section_for_vma bf vma = .ok out) (hm : out.mem = some m) :
    section_from_vma bf vma = some m.section_ ∧
      m.buffer_vma = m.section_.vma ∧ m.buffer_length = (m.section_.size : Int) ∧
      m.buffer_vma ≤ vma ∧ (vma : Int) < (m.buffer_vma : Int) + m.buffer_length := by
  obtain ⟨habfd, hent, _⟩ := reachable_cache_inv abfd bf hreach
  obtain ⟨s', hs', hcase⟩ := load_section_for_vma_ok bf vma out hload
  rw [hs] at hs'
  simp only [Option.some.injEq] at hs'
  subst hs'
  obtain ⟨hsec, hlo, hhi⟩ := section_from_vma_some bf vma s hs
  have hhi2 : vma < s.vma + s.size := lt_of_lt_of_le hhi (Nat.mod_le _ _)
  have key : m.section_ = s ∧ m.buffer_vma = s.vma ∧ m.buffer_length = to_int s.size := by
    rcases hcase with ⟨e, hfind, rfl⟩ | ⟨_, _, _, rfl⟩ | ⟨_, m2, reads, hm2, rfl⟩
    · simp only [Option.some.injEq] at hm
      subst hm
      obtain ⟨he, hk⟩ := htable_find_some _ _ _ hfind
      obtain ⟨h1, h2, h3, h4⟩ := hent e he
      have hv : e.mem.section_.vma = s.vma := by rw [← h2, ← h1, hk]
      have heq : e.mem.section_ = s := hdistinct _ h3 hv
      exact ⟨heq, by rw [h2, hv], by rw [h4, heq]⟩
    · simp at hm
    · simp only [Option.some.injEq] at hm
      subst hm
      obtain ⟨h1, h2, h3, _, _⟩ := load_section_some bf.abfd s m2 reads hm2
      exact ⟨h1, h2, h3⟩
  obtain ⟨k1, k2, k3⟩ := key
  rw [to_int_of_lt _ hsize] at k3
  subst k1
  refine ⟨hs, k2, k3, by omega, ?_⟩
  rw [k2, k3]
  exact_mod_cast hhi2

theorem load_section_for_vma_encloses_witness :
    section_from_vma bf_mixed_loaded 0x1018 = some block_a.section_ ∧
      block_a.buffer_vma = block_a.section_.vma ∧
      block_a.buffer_length = (block_a.section_.size : Int) ∧
      block_a.buffer_vma ≤ 0x1018 ∧
      ((0x1018 : Nat) : Int) < (block_a.buffer_vma : Int) + block_a.buffer_length :=
  load_section_for_vma_encloses bfd_mixed bf_mixed_loaded 0x1018
    ⟨some block_a, bf_mixed_loaded, []⟩ block_a sec_a bf_mixed_loaded_reachable
    rfl (by decide) (by decide) rfl rfl

/-- C1 fails as stated: `sec_a` and `sec_b` share the load address `0x1000`.
After a load at `0x1005` (which locates `sec_b`, the later of the two), the
cache holds the block of `sec_b` under `0x1000`; a load at `0x1018` locates
`sec_a`, hits that entry and returns the block of `sec_b`, whose range
`[0x1000, 0x1010)` does not contain `0x1018`. -/
theorem load_section_for_vma_shared_base :
    Reachable bfd_shared bf_shared_loaded ∧
      section_from_vma bf_shared_loaded 0x1018 = some sec_a ∧
      load_section_for_vma bf_shared_loaded 0x1018
        = .ok ⟨some block_b, bf_shared_loaded, []⟩ ∧
      block_b.section_ ≠ sec_a ∧
      ¬ (((0x1018 : Nat) : Int) < (block_b.buffer_vma : Int) + block_b.buffer_length) :=
  ⟨bf_shared_loaded_reachable, rfl, rfl, by decide, by decide⟩

/-! ## Failure paths -/

/-- C2, what the code does: for every bin-file and every VMA that no section
covers, `load_section_for_vma` does not return `NULL`: `section_from_vma`
yields `NULL` and line 78 dereferences it. (The cache is not touched.) -/
theorem load_section_for_vma_uncovered_faults (bf : bin_file) (vma : Nat)
    (h : ∀ s ∈ bf.abfd.sections, ¬ (s.vma ≤ vma ∧ vma < s.vma + s.size)) :
    section_from_vma bf vma = none ∧
      load_section_for_vma bf vma = .error Fault.null_deref := by
  have hnone : section_from_vma bf vma = none := by
    rw [section_from_vma_none]
    intro s hs hc
    exact h s hs ⟨hc.1, lt_of_lt_of_le hc.2 (Nat.mod_le _ _)⟩
  refine ⟨hnone, ?_⟩
  unfold load_section_for_vma
  rw [hnone]

theorem load_section_for_vma_uncovered_faults_witness :
    section_from_vma ⟨bfd_plain, []⟩ 0x500 = none ∧
      load_section_for_vma ⟨bfd_plain, []⟩ 0x500 = .error Fault.null_deref :=
  load_section_for_vma_uncovered_faults ⟨bfd_plain, []⟩ 0x500 (by decide)

/-- C3, as amended: when `section_from_vma` locates `s` for `vma`, the cache
has no entry under the load address of `s`, `s` is smaller than `2 ^ 31`
bytes, and the backend refuses to return the contents of `s` (all `size`
bytes from offset 0), then `load_section_for_vma bf vma` returns `NULL` and
the bin-file, its cache included, is exactly what it was; the refused read is
the only one made. -/
theorem load_section_for_vma_read_refused (bf : bin_file) (vma : Nat) (s : asection)
    (hs : section_from_vma bf vma = some s)
    (hmiss : htable_find bf.mem_table (bfd_get_section_vma s) = none)
    (hsize : bfd_section_size s < 2 ^ 31)
    (hrefuse : bf.abfd.get_section_contents s 0 (bfd_section_size s) = none) :
    load_section_for_vma bf vma = .ok ⟨none, bf, [⟨s, 0, bfd_section_size s⟩]⟩ := by
  unfold bfd_section_size at hsize hrefuse ⊢
  have hint : to_int s.size = (s.size : Int) := to_int_of_lt _ hsize
  have hcount : to_size_t (s.size : Int) = s.size := by
    unfold to_size_t
    omega
  have hl : load_section bf.abfd s = .ok (none, [⟨s, 0, s.size⟩]) := by
    rw [load_section_eq, hint, hcount, if_neg (by omega), hrefuse]
  unfold load_section_for_vma
  simp only [hs, hmiss, hl]

theorem load_section_for_vma_read_refused_witness :
    load_section_for_vma ⟨bfd_refusing, [⟨0x1000, block_a⟩]⟩ 0x2008
      = .ok ⟨none, ⟨bfd_refusing, [⟨0x1000, block_a⟩]⟩, [⟨sec_c, 0, 0x10⟩]⟩ :=
  load_section_for_vma_read_refused ⟨bfd_refusing, [⟨0x1000, block_a⟩]⟩ 0x2008 sec_c
    rfl rfl (by decide) rfl

theorem bf_shared_refusing_loaded_reachable :
    Reachable bfd_shared_refusing bf_shared_refusing_loaded :=
  @Reachable.load bfd_shared_refusing ⟨bfd_shared_refusing, []⟩ 0x1005
    ⟨some block_b, bf_shared_refusing_loaded, [⟨sec_b, 0, 0x10⟩]⟩ Reachable.init rfl

/-- C3 fails as stated: in `bfd_shared_refusing` the sections `sec_a` and
`sec_b` share the load address `0x1000` and the backend refuses every read of
`sec_a`. After a load at `0x1005` the cache holds the block of `sec_b` only.
A load at `0x1018` locates `sec_a`, which has no block in the cache and whose
contents the backend refuses; the lookup under `0x1000` hits the entry of
`sec_b`, and the call returns that block instead of `NULL`. -/
theorem load_section_for_vma_refused_shared_base :
    Reachable bfd_shared_refusing bf_shared_refusing_loaded ∧
      section_from_vma bf_shared_refusing_loaded 0x1018 = some sec_a ∧
      (∀ e ∈ bf_shared_refusing_loaded.mem_table, e.mem.section_ ≠ sec_a) ∧
      (∀ offset count,
        bfd_shared_refusing.get_section_contents sec_a offset count = none) ∧
      load_section_for_vma bf_shared_refusing_loaded 0x1018
        = .ok ⟨some block_b, bf_shared_refusing_loaded, []⟩ :=
  ⟨bf_shared_refusing_loaded_reachable, rfl, by decide, fun _ _ => rfl, rfl⟩

/-! ## Hits -/

/-- C4: after `load_section_for_vma bf vma` has returned a block `m`, a call
for any `vma'` that `section_from_vma` locates in the same section returns
`m` again, issues no backend read and leaves the bin-file as the first call
left it. -/
theorem load_section_for_vma_idempotent (bf : bin_file) (vma : Nat) (out : load_result)
    (m : bf_mem_block) (vma' : Nat)
    (hload : load_section_for_vma bf vma = .ok out) (hm : out.mem = some m)
    (hsame : section_from_vma bf vma' = section_from_vma bf vma) :
    load_section_for_vma out.bf vma' = .ok ⟨some m, out.bf, []⟩ := by
  obtain ⟨s, hs, hcase⟩ := load_section_for_vma_ok bf vma out hload
  rw [hs] at hsame
  rcases hcase with ⟨e, hfind, rfl⟩ | ⟨_, _, _, rfl⟩ | ⟨_, m2, reads, hm2, rfl⟩
  · simp only [Option.some.injEq] at hm
    subst hm
    unfold load_section_for_vma
    simp only [hsame, bfd_get_section_vma, hfind, hash_entry]
  · simp at hm
  · simp only [Option.some.injEq] at hm
    subst hm
    obtain ⟨_, h2, _, _, _⟩ := load_section_some bf.abfd s m2 reads hm2
    have hsame2 : section_from_vma ⟨bf.abfd, ⟨m2.buffer_vma, m2⟩ :: bf.mem_table⟩ vma'
        = some s := hsame
    rw [h2] at hsame2 ⊢
    unfold load_section_for_vma
    simp only [hsame2, bfd_get_section_vma, htable_find, List.find?_cons, beq_self_eq_true,
      hash_entry]

theorem load_section_for_vma_idempotent_witness :
    load_section_for_vma bf_plain_loaded 0x101f = .ok ⟨some block_a, bf_plain_loaded, []⟩ :=
  load_section_for_vma_idempotent ⟨bfd_plain, []⟩ 0x1005
    ⟨some block_a, bf_plain_loaded, [⟨sec_a, 0, 0x20⟩]⟩ block_a 0x101f rfl rfl rfl

/-! ## The cache invariant and unloading -/

theorem bf_plain_both_reachable : Reachable bfd_plain bf_plain_both :=
  @Reachable.load bfd_plain bf_plain_loaded 0x2008
    ⟨some block_c, bf_plain_both, [⟨sec_c, 0, 0x10⟩]⟩ bf_plain_loaded_reachable rfl

/-- C5: in every cache state reachable from the empty `mem_table` by calls of
`load_section_for_vma` and `unload_all_sections`, each entry is stored under
the `buffer_vma` of its block, which is the `vma` of the block's section; no
key occurs twice; and no section occurs in two entries. -/
theorem reachable_cache_keyed (abfd : bfd) (bf : bin_file) (h : Reachable abfd bf) :
    (∀ e ∈ bf.mem_table,
        e.key = e.mem.buffer_vma ∧ e.mem.buffer_vma = e.mem.section_.vma) ∧
      (bf.mem_table.map (fun e => e.key)).Nodup ∧
      (bf.mem_table.map (fun e => e.mem.section_)).Nodup := by
  obtain ⟨_, hent, hnd⟩ := reachable_cache_inv abfd bf h
  refine ⟨fun e he => ⟨(hent e he).1, (hent e he).2.1⟩, hnd, ?_⟩
  have hkeys : bf.mem_table.map (fun e => e.key)
      = (bf.mem_table.map (fun e => e.mem.section_)).map (fun s => s.vma) := by
    rw [List.map_map]
    apply List.map_congr_left
    intro e he
    simp only [Function.comp_apply]
    rw [(hent e he).1, (hent e he).2.1]
  rw [hkeys] at hnd
  exact List.Nodup.of_map _ hnd

theorem reachable_cache_keyed_witness :
    (∀ e ∈ bf_plain_both.mem_table,
        e.key = e.mem.buffer_vma ∧ e.mem.buffer_vma = e.mem.section_.vma) ∧
      (bf_plain_both.mem_table.map (fun e => e.key)).Nodup ∧
      (bf_plain_both.mem_table.map (fun e => e.mem.section_)).Nodup :=
  reachable_cache_keyed bfd_plain bf_plain_both bf_plain_both_reachable

/-- C6: `unload_all_sections` is total and, from any cache state, leaves the
`mem_table` empty; the blocks it frees are exactly the blocks of the entries
that were cached, each once, in table order; afterwards a lookup of any key
finds nothing; the BFD object is untouched. -/
theorem unload_all_sections_empties (bf : bin_file) :
    (unload_all_sections bf).1.mem_table = [] ∧
      (unload_all_sections bf).2 = bf.mem_table.map hash_entry ∧
      (∀ key, htable_find (unload_all_sections bf).1.mem_table key = none) ∧
      (unload_all_sections bf).1.abfd = bf.abfd := by
  rw [unload_all_sections_eq]
  exact ⟨rfl, rfl, fun _ => rfl, rfl⟩

/-! ## The block built on a miss -/

/-- For a section smaller than `2 ^ 31` bytes whose contents the backend
returns, `load_section` issues one read of `size` bytes from offset 0 and
builds the block the memory manager promises. -/
theorem load_section_of_small (abfd : bfd) (s : asection) (bytes : List Nat)
    (hsize : s.size < 2 ^ 31)
    (hread : abfd.get_section_contents s 0 s.size = some bytes) :
    load_section abfd s
      = .ok (some ⟨s, bytes, (s.size : Int), s.vma⟩, [⟨s, 0, s.size⟩]) := by
  have hcount : to_size_t (s.size : Int) = s.size := by
    unfold to_size_t
    omega
  rw [load_section_eq, to_int_of_lt _ hsize, hcount, if_neg (by omega), hread]

/-- A section of `2 ^ 31` bytes narrows to a negative `int`: `xmalloc` is
asked for `2 ^ 64 - 2 ^ 31` bytes and the call does not return; no read is
issued. -/
theorem load_section_exits_on_negative_size :
    to_int (bfd_section_size sec_2g) = -(2 ^ 31) ∧
      load_section ⟨[sec_2g], serve_all⟩ sec_2g = .error Fault.xmalloc_failed :=
  ⟨by decide, rfl⟩

/-- C7, what the code does at a section of `2 ^ 32 + 5` bytes whose full
contents the backend can return: `int size` is 5, so `load_section` asks for 5
bytes and records `buffer_length = 5`, not the section size. -/
theorem load_section_narrows_size :
    bfd_section_size sec_big = 2 ^ 32 + 5 ∧
      (bfd_big.get_section_contents sec_big 0 (bfd_section_size sec_big)).isSome = true ∧
      load_section bfd_big sec_big
        = .ok (some ⟨sec_big, [2, 3, 4, 5, 6], 5, 0x400000⟩, [⟨sec_big, 0, 5⟩]) :=
  ⟨rfl, rfl, rfl⟩

/-! ## Frame of a load -/

/-- C8: a returning `load_section_for_vma` only ever adds to the cache. The
table afterwards is the old table with at most one entry linked in front;
every lookup that found an entry still finds the same entry; on a hit and on
a failed read the table is unchanged; on a successful miss exactly one entry
is added, keyed by the new block's `buffer_vma`, a key that was absent. -/
theorem load_section_for_vma_frame (bf : bin_file) (vma : Nat) (out : load_result)
    (h : load_section_for_vma bf vma = .ok out) :
    out.bf.abfd = bf.abfd ∧
      (∃ added, out.bf.mem_table = added ++ bf.mem_table ∧ added.length ≤ 1) ∧
      (∀ e ∈ bf.mem_table, e ∈ out.bf.mem_table) ∧
      (∀ key e, htable_find bf.mem_table key = some e →
        htable_find out.bf.mem_table key = some e) ∧
      ∃ s, section_from_vma bf vma = some s ∧
        (∀ e, htable_find bf.mem_table (bfd_get_section_vma s) = some e →
          out.mem = some (hash_entry e) ∧ out.bf.mem_table = bf.mem_table) ∧
        (out.mem = none → out.bf.mem_table = bf.mem_table) ∧
        (htable_find bf.mem_table (bfd_get_section_vma s) = none → ∀ m, out.mem = some m →
          htable_find bf.mem_table m.buffer_vma = none ∧
          out.bf.mem_table = ⟨m.buffer_vma, m⟩ :: bf.mem_table) := by
  obtain ⟨s, hs, hcase⟩ := load_section_for_vma_ok bf vma out h
  rcases hcase with ⟨e, hfind, rfl⟩ | ⟨hmiss, _, _, rfl⟩ | ⟨hmiss, m, reads, hm, rfl⟩
  · refine ⟨rfl, ⟨[], rfl, by simp⟩, fun _ he => he, fun _ _ hk => hk, s, hs, ?_, ?_, ?_⟩
    · intro e2 he2
      rw [bfd_get_section_vma, hfind] at he2
      simp only [Option.some.injEq] at he2
      subst he2
      exact ⟨rfl, rfl⟩
    · intro _
      rfl
    · intro hnone
      rw [bfd_get_section_vma, hfind] at hnone
      cases hnone
  · refine ⟨rfl, ⟨[], rfl, by simp⟩, fun _ he => he, fun _ _ hk => hk, s, hs, ?_, ?_, ?_⟩
    · intro e2 he2
      rw [bfd_get_section_vma, hmiss] at he2
      cases he2
    · intro _
      rfl
    · intro _ m hm
      cases hm
  · obtain ⟨_, h2, _, _, _⟩ := load_section_some bf.abfd s m reads hm
    refine ⟨rfl, ⟨[⟨m.buffer_vma, m⟩], rfl, by simp⟩, fun _ he => List.mem_cons_of_mem _ he,
      ?_, s, hs, ?_, ?_, ?_⟩
    · intro key e hk
      have hne : m.buffer_vma ≠ key := by
        intro heq
        rw [← heq, h2, hmiss] at hk
        cases hk
      unfold htable_find at hk ⊢
      rw [List.find?_cons]
      have : ((m.buffer_vma == key) = false) := by simpa using hne
      simp only [this]
      exact hk
    · intro e2 he2
      rw [bfd_get_section_vma, hmiss] at he2
      cases he2
    · intro hnone
      cases hnone
    · intro _ m2 hm2
      simp only [Option.some.injEq] at hm2
      subst hm2
      refine ⟨?_, rfl⟩
      rw [h2]
      exact hmiss

theorem load_section_for_vma_frame_witness :
    bf_plain_both.abfd = bf_plain_loaded.abfd ∧
      (∃ added, bf_plain_both.mem_table = added ++ bf_plain_loaded.mem_table ∧
        added.length ≤ 1) ∧
      (∀ e ∈ bf_plain_loaded.mem_table, e ∈ bf_plain_both.mem_table) ∧
      (∀ key e, htable_find bf_plain_loaded.mem_table key = some e →
        htable_find bf_plain_both.mem_table key = some e) ∧
      ∃ s, section_from_vma bf_plain_loaded 0x2008 = some s ∧
        (∀ e, htable_find bf_plain_loaded.mem_table (bfd_get_section_vma s) = some e →
          some block_c = some (hash_entry e) ∧
          bf_plain_both.mem_table = bf_plain_loaded.mem_table) ∧
        ((some block_c : Option bf_mem_block) = none →
          bf_plain_both.mem_table = bf_plain_loaded.mem_table) ∧
        (htable_find bf_plain_loaded.mem_table (bfd_get_section_vma s) = none →
          ∀ m, some block_c = some m →
          htable_find bf_plain_loaded.mem_table m.buffer_vma = none ∧
          bf_plain_both.mem_table = ⟨m.buffer_vma, m⟩ :: bf_plain_loaded.mem_table) :=
  load_section_for_vma_frame bf_plain_loaded 0x2008
    ⟨some block_c, bf_plain_both, [⟨sec_c, 0, 0x10⟩]⟩ rfl

/-! ## Exactness of the range test -/

theorem nat_or_eq_zero (a b : Nat) : a ||| b = 0 ↔ a = 0 ∧ b = 0 := by
  constructor
  · intro h
    have hbits : ∀ i, (a.testBit i || b.testBit i) = false := by
      intro i
      rw [← Nat.testBit_or, h, Nat.zero_testBit]
    constructor
    · apply Nat.zero_of_testBit_eq_false
      intro i
      have := hbits i
      simp only [Bool.or_eq_false_iff] at this
      exact this.1
    · apply Nat.zero_of_testBit_eq_false
      intro i
      have := hbits i
      simp only [Bool.or_eq_false_iff] at this
      exact this.2
  · rintro ⟨rfl, rfl⟩
    rfl

theorem value_and_value (p f : insn_part_type) : p.value &&& f.value ≠ 0 ↔ p = f := by
  cases p <;> cases f <;> decide

theorem foldl_or_and (parts : List insn_part_type) (acc : Nat) (f : insn_part_type) :
    parts.foldl (fun acc p => acc ||| p.value) acc &&& f.value ≠ 0 ↔
      acc &&& f.value ≠ 0 ∨ f ∈ parts := by
  induction parts generalizing acc with
  | nil => simp
  | cons p t ih =>
    rw [List.foldl_cons, ih, Nat.and_distrib_right, Ne, nat_or_eq_zero, List.mem_cons]
    have hv := value_and_value p f
    constructor
    · rintro (h | h)
      · by_cases h0 : acc &&& f.value = 0
        · right; left
          exact (hv.mp (fun h1 => h ⟨h0, h1⟩)).symm
        · exact Or.inl h0
      · exact Or.inr (Or.inr h)
    · rintro (h | h | h)
      · exact Or.inl (fun h1 => h h1.1)
      · exact Or.inl (fun h1 => (hv.mpr h.symm) h1.2)
      · exact Or.inr h

/-- C10: the six `insn_part_type` values are powers of two, pairwise
distinct, and a flag is set in the bitwise OR of any collection of part types
(a list in any order, or a finite set) exactly when it belongs to the
collection. -/
theorem insn_part_type_flags :
    (∀ p : insn_part_type, ∃ k, p.value = 2 ^ k) ∧
      (∀ p q : insn_part_type, p.value = q.value → p = q) ∧
      (∀ (parts : List insn_part_type) (f : insn_part_type),
        part_types_or parts &&& f.value ≠ 0 ↔ f ∈ parts) ∧
      (∀ (S : Finset insn_part_type) (f : insn_part_type),
        part_types_or S.toList &&& f.value ≠ 0 ↔ f ∈ S) := by
  have hlist : ∀ (parts : List insn_part_type) (f : insn_part_type),
      part_types_or parts &&& f.value ≠ 0 ↔ f ∈ parts := by
    intro parts f
    unfold part_types_or
    rw [foldl_or_and]
    simp
  refine ⟨?_, ?_, hlist, fun S f => by rw [hlist, Finset.mem_toList]⟩
  · intro p
    cases p
    · exact ⟨0, rfl⟩
    · exact ⟨1, rfl⟩
    · exact ⟨2, rfl⟩
    · exact ⟨3, rfl⟩
    · exact ⟨4, rfl⟩
    · exact ⟨5, rfl⟩
  · intro p q
    cases p <;> cases q <;> decide

/-! ## Which section a lookup selects -/

theorem vma_in_section_eq (s : asection) (req : BFD_VMA_SECTION) :
    vma_in_section s req
      = if vma_matches s req.vma = true then { req with sec := some s } else req := by
  unfold vma_in_section vma_matches
  by_cases hc : req.vma ≥ s.vma ∧ req.vma < (s.vma + bfd_section_size s) % 2 ^ 64
  · rw [if_pos hc, if_pos (decide_eq_true hc)]
  · rw [if_neg hc, if_neg (by simpa using hc)]

/-- The scan leaves in `req.sec` the last section of the list that passes the
test, or what was there before when none does. -/
theorem scan_sec_last (l : List asection) (req : BFD_VMA_SECTION) :
    (l.foldl (fun d s => vma_in_section s d) req).sec
      = ((l.filter (fun s => vma_matches s req.vma)).getLast?).or req.sec := by
  induction l generalizing req with
  | nil => rfl
  | cons a t ih =>
    rw [List.foldl_cons, ih, vma_in_section_vma, vma_in_section_eq, List.filter_cons]
    by_cases hm : vma_matches a req.vma = true
    · rw [if_pos hm, if_pos hm, List.getLast?_cons]
      cases (t.filter (fun s => vma_matches s req.vma)).getLast? <;> rfl
    · rw [if_neg hm, if_neg hm]

/-- In terms of the test `vma_in_section` applies: `section_from_vma` returns
the last section, in list order, that passes it, each later match replacing
the earlier one. It is the last element of the sub-list of matching sections;
a matching section followed by no further match is the one selected; and a
section that is the only match is selected. For a section that ends below
`2 ^ 64` the test is the half-open range `vma ≤ v < vma + size`. -/
theorem section_from_vma_last_match (bf : bin_file) (v : Nat) :
    section_from_vma bf v
        = (bf.abfd.sections.filter (fun s => vma_matches s v)).getLast? ∧
      (∀ pre s post, bf.abfd.sections = pre ++ s :: post → vma_matches s v = true →
        (∀ t ∈ post, vma_matches t v = false) → section_from_vma bf v = some s) ∧
      (∀ s ∈ bf.abfd.sections, vma_matches s v = true →
        (∀ t ∈ bf.abfd.sections, vma_matches t v = true → t = s) →
        section_from_vma bf v = some s) ∧
      (∀ s : asection, s.vma + s.size < 2 ^ 64 →
        (vma_matches s v = true ↔ s.vma ≤ v ∧ v < s.vma + s.size)) := by
  have hlast : section_from_vma bf v
      = (bf.abfd.sections.filter (fun s => vma_matches s v)).getLast? := by
    unfold section_from_vma bfd_map_over_sections
    rw [scan_sec_last, Option.or_none]
  refine ⟨hlast, ?_, ?_, ?_⟩
  · intro pre s post hsplit hs hpost
    have hnil : post.filter (fun t => vma_matches t v) = [] := by
      rw [List.filter_eq_nil_iff]
      intro t ht
      rw [hpost t ht]
      decide
    rw [hlast, hsplit, List.filter_append, List.filter_cons, if_pos hs, hnil,
      List.getLast?_append, List.getLast?_singleton]
    rfl
  · intro s hs hm huniq
    cases hr : section_from_vma bf v with
    | none =>
      rw [hlast, List.getLast?_eq_none_iff, List.filter_eq_nil_iff] at hr
      exact absurd hm (hr s hs)
    | some t =>
      rw [hlast] at hr
      have ht := List.mem_of_getLast?_eq_some hr
      rw [List.mem_filter] at ht
      rw [huniq t ht.1 ht.2]
  · intro s hfit
    unfold vma_matches bfd_section_size
    rw [decide_eq_true_iff, Nat.mod_eq_of_lt hfit]

theorem vma_matches_sound (s : asection) (v : Nat) (h : vma_matches s v = true) :
    s.vma ≤ v ∧ v < s.vma + s.size := by
  unfold vma_matches bfd_section_size at h
  rw [decide_eq_true_iff] at h
  exact ⟨h.1, lt_of_lt_of_le h.2 (Nat.mod_le _ _)⟩

/-- C11, as amended: of the sections whose range `[vma, vma + size)` covers
the VMA, `section_from_vma` selects the last one in the order the list is
traversed, provided that section ends below `2 ^ 64` (`vma + size < 2 ^ 64`);
and a section that is the only one to cover the VMA and ends below `2 ^ 64`
is the one selected. Nothing is asked of the other sections. -/
theorem section_from_vma_selects_last_cover (bf : bin_file) (v : Nat) :
    (∀ pre s post, bf.abfd.sections = pre ++ s :: post →
        (s.vma ≤ v ∧ v < s.vma + s.size) → s.vma + s.size < 2 ^ 64 →
        (∀ t ∈ post, ¬ (t.vma ≤ v ∧ v < t.vma + t.size)) →
        section_from_vma bf v = some s) ∧
      (∀ s ∈ bf.abfd.sections,
        (s.vma ≤ v ∧ v < s.vma + s.size) → s.vma + s.size < 2 ^ 64 →
        (∀ t ∈ bf.abfd.sections, (t.vma ≤ v ∧ v < t.vma + t.size) → t = s) →
        section_from_vma bf v = some s) := by
  obtain ⟨_, hlast, hsole, hrange⟩ := section_from_vma_last_match bf v
  constructor
  · intro pre s post hsplit hcov hfit hpost
    refine hlast pre s post hsplit ((hrange s hfit).mpr hcov) ?_
    intro t ht
    cases hm : vma_matches t v with
    | false => rfl
    | true => exact absurd (vma_matches_sound t v hm) (hpost t ht)
  · intro s hs hcov hfit huniq
    refine hsole s hs ((hrange s hfit).mpr hcov) ?_
    intro t ht hm
    exact huniq t ht (vma_matches_sound t v hm)

theorem section_from_vma_selects_last_cover_witness :
    section_from_vma ⟨bfd_overlap, []⟩ 0x1005 = some sec_b :=
  (section_from_vma_selects_last_cover ⟨bfd_overlap, []⟩ 0x1005).1 [sec_a] sec_b [sec_c] rfl
    (by decide) (by decide) (by decide)

/-- C11 fails as stated. In `bfd_top` the section `sec_top` is the only
section and covers `2 ^ 64 - 8`, yet it is not selected. In `bfd_high` both
`sec_high` and `sec_top` cover `2 ^ 64 - 12` and `sec_top` is the later one,
yet `sec_high` is selected. In both, `sec_top` ends exactly at `2 ^ 64`, the
sum `vma + size` is `0` in 64 bits and the test of `vma_in_section` fails. -/
theorem section_from_vma_sole_cover_unselected :
    (bfd_top.sections = [sec_top] ∧
      (sec_top.vma ≤ 2 ^ 64 - 8 ∧ 2 ^ 64 - 8 < sec_top.vma + sec_top.size) ∧
      section_from_vma ⟨bfd_top, []⟩ (2 ^ 64 - 8) = none) ∧
    (bfd_high.sections = [sec_high, sec_top] ∧
      (sec_high.vma ≤ 2 ^ 64 - 12 ∧ 2 ^ 64 - 12 < sec_high.vma + sec_high.size) ∧
      (sec_top.vma ≤ 2 ^ 64 - 12 ∧ 2 ^ 64 - 12 < sec_top.vma + sec_top.size) ∧
      section_from_vma ⟨bfd_high, []⟩ (2 ^ 64 - 12) = some sec_high) := by
  decide

/-! ## The section table -/

theorem section_add_of_some {n : Nat} (hf : String → Fin n) (t : section_table n)
    (scn e : section_) (h : section_find hf t scn.name = some e) :
    section_add hf t scn = t := by
  unfold section_find at h
  simp only [section_add, h]

theorem section_add_of_none {n : Nat} (hf : String → Fin n) (t : section_table n)
    (scn : section_) (h : section_find hf t scn.name = none) :
    section_add hf t scn
      = ⟨Function.update t.section_hash (hf scn.name)
          (scn :: t.section_hash (hf scn.name))⟩ := by
  unfold section_find at h
  simp only [section_add, h, hlist_add_head]

/-- What a lookup finds after an add: the added section when its name was
absent from its bucket and is the name looked up, otherwise what it found
before. -/
theorem section_find_add {n : Nat} (hf : String → Fin n) (t : section_table n)
    (scn : section_) (m : String) :
    section_find hf (section_add hf t scn) m
      = if section_find hf t scn.name = none ∧ scn.name = m then some scn
        else section_find hf t m := by
  cases h1 : section_find hf t scn.name with
  | some e =>
    rw [section_add_of_some hf t scn e h1, if_neg (by simp)]
  | none =>
    rw [section_add_of_none hf t scn h1]
    simp only [true_and]
    unfold section_find
    dsimp only
    by_cases hm : scn.name = m
    · subst hm
      simp only [Function.update_same, List.find?_cons, beq_self_eq_true, if_true]
    · rw [if_neg hm]
      have hb : (scn.name == m) = false := by simpa using hm
      by_cases hi : hf m = hf scn.name
      · rw [hi, Function.update_same, List.find?_cons, hb]
      · simp only [Function.update_noteq hi]

theorem section_find_foldl {n : Nat} (hf : String → Fin n) (adds : List section_)
    (t : section_table n) (m : String) :
    section_find hf (adds.foldl (section_add hf) t) m
      = (section_find hf t m).or (adds.find? (fun s => s.name == m)) := by
  induction adds generalizing t with
  | nil => simp
  | cons a l ih =>
    rw [List.foldl_cons, ih, section_find_add, List.find?_cons]
    by_cases hm : a.name = m
    · subst hm
      cases hfind : section_find hf t a.name with
      | none => simp
      | some e => simp
    · have hb : (a.name == m) = false := by simpa using hm
      rw [if_neg (fun h => hm h.2), hb]

/-- The two facts every table built by `section_add` satisfies. -/
theorem section_add_keeps_buckets {n : Nat} (hf : String → Fin n) (t : section_table n)
    (scn : section_)
    (hb : ∀ i, ∀ s ∈ t.section_hash i, hf s.name = i)
    (hn : ∀ i, ((t.section_hash i).map (fun s => s.name)).Nodup) :
    (∀ i, ∀ s ∈ (section_add hf t scn).section_hash i, hf s.name = i) ∧
      (∀ i, (((section_add hf t scn).section_hash i).map (fun s => s.name)).Nodup) := by
  cases hfind : section_find hf t scn.name with
  | some e =>
    rw [section_add_of_some hf t scn e hfind]
    exact ⟨hb, hn⟩
  | none =>
    rw [section_add_of_none hf t scn hfind]
    have habs : ∀ s ∈ t.section_hash (hf scn.name), s.name ≠ scn.name := by
      intro s hs
      have := List.find?_eq_none.mp hfind s hs
      simpa using this
    constructor
    · intro i s hs
      by_cases hi : i = hf scn.name
      · subst hi
        simp only [Function.update_same, List.mem_cons] at hs
        rcases hs with rfl | hs
        · rfl
        · exact hb _ s hs
      · simp only [Function.update_noteq hi] at hs
        exact hb i s hs
    · intro i
      by_cases hi : i = hf scn.name
      · subst hi
        simp only [Function.update_same, List.map_cons, List.nodup_cons]
        refine ⟨?_, hn _⟩
        intro hmem
        obtain ⟨s, hs, hname⟩ := List.mem_map.mp hmem
        exact habs s hs hname
      · simp only [Function.update_noteq hi]
        exact hn i

theorem section_table_of_buckets {n : Nat} (hf : String → Fin n) (adds : List section_) :
    (∀ i, ∀ s ∈ (section_table_of hf adds).section_hash i, hf s.name = i) ∧
      (∀ i, (((section_table_of hf adds).section_hash i).map (fun s => s.name)).Nodup) := by
  unfold section_table_of
  have gen : ∀ (l : List section_) (t : section_table n),
      ((∀ i, ∀ s ∈ t.section_hash i, hf s.name = i) ∧
        (∀ i, ((t.section_hash i).map (fun s => s.name)).Nodup)) →
      ((∀ i, ∀ s ∈ (l.foldl (section_add hf) t).section_hash i, hf s.name = i) ∧
        (∀ i, (((l.foldl (section_add hf) t).section_hash i).map (fun s => s.name)).Nodup)) := by
    intro l
    induction l with
    | nil => intro t h; exact h
    | cons a l ih =>
      intro t h
      exact ih _ (section_add_keeps_buckets hf t a h.1 h.2)
  apply gen
  constructor
  · intro i s hs
    simp [section_table_init, INIT_HLIST_HEAD] at hs
  · intro i
    simp [section_table_init, INIT_HLIST_HEAD]

/-- C12: on the table that `section_table_init` and any sequence of
`section_add` calls build, `section_find` of a name returns the first section
added under that name: a section with that name whenever one was added, and
`NULL` exactly when none was; on a freshly initialised table it returns
`NULL` for every name. -/
theorem section_find_built {n : Nat} (hf : String → Fin n) (adds : List section_)
    (m : String) :
    section_find hf (section_table_of hf adds) m = adds.find? (fun s => s.name == m) ∧
      ((∃ s ∈ adds, s.name = m) →
        ∃ r, section_find hf (section_table_of hf adds) m = some r ∧ r.name = m ∧ r ∈ adds) ∧
      (section_find hf (section_table_of hf adds) m = none ↔ ∀ s ∈ adds, s.name ≠ m) ∧
      section_find hf (section_table_init n) m = none := by
  have hinit : section_find hf (section_table_init n) m = none := rfl
  have hfirst : section_find hf (section_table_of hf adds) m
      = adds.find? (fun s => s.name == m) := by
    unfold section_table_of
    rw [section_find_foldl, hinit, Option.none_or]
  refine ⟨hfirst, ?_, ?_, hinit⟩
  · rintro ⟨s, hs, hname⟩
    cases hr : adds.find? (fun s => s.name == m) with
    | none =>
      have := List.find?_eq_none.mp hr s hs
      simp [hname] at this
    | some r =>
      refine ⟨r, by rw [hfirst, hr], ?_, List.mem_of_find?_eq_some hr⟩
      have := List.find?_some hr
      simpa using this
  · rw [hfirst, List.find?_eq_none]
    simp

theorem section_find_built_witness :
    ∃ r, section_find hash_len4
        (section_table_of hash_len4 [scn_text, scn_data, scn_text2, scn_bss]) ".text" = some r ∧
      r.name = ".text" ∧ r ∈ [scn_text, scn_data, scn_text2, scn_bss] :=
  (section_find_built hash_len4 [scn_text, scn_data, scn_text2, scn_bss] ".text").2.1
    ⟨scn_text, by decide, rfl⟩

/-- C13: `section_add` is first-insert-wins on the name. When the lookup of
`scn`'s name already finds a section, the add leaves the table unchanged and
the lookup still returns that earlier section; when it finds none, the
lookup returns `scn` after the add; adding `scn` a second time changes
nothing. In a table built by `section_add` calls, a section with `scn`'s name
held in any bucket is found by the lookup, so the add leaves that table
unchanged. -/
theorem section_add_first_wins {n : Nat} (hf : String → Fin n) (t : section_table n)
    (scn : section_) :
    (∀ e, section_find hf t scn.name = some e →
        section_add hf t scn = t ∧
        section_find hf (section_add hf t scn) scn.name = some e) ∧
      (section_find hf t scn.name = none →
        section_find hf (section_add hf t scn) scn.name = some scn) ∧
      section_add hf (section_add hf t scn) scn = section_add hf t scn ∧
      (∀ adds, t = section_table_of hf adds →
        ∀ i, ∀ e ∈ t.section_hash i, e.name = scn.name →
          section_find hf t scn.name = some e ∧ section_add hf t scn = t) := by
  have hsome : ∀ e, section_find hf t scn.name = some e →
      section_add hf t scn = t ∧
      section_find hf (section_add hf t scn) scn.name = some e := by
    intro e he
    have := section_add_of_some hf t scn e he
    exact ⟨this, by rw [this, he]⟩
  have hnone : section_find hf t scn.name = none →
      section_find hf (section_add hf t scn) scn.name = some scn := by
    intro h
    rw [section_find_add, if_pos ⟨h, rfl⟩]
  refine ⟨hsome, hnone, ?_, ?_⟩
  · cases h : section_find hf t scn.name with
    | some e =>
      rw [(hsome e h).1, (hsome e h).1]
    | none =>
      exact section_add_of_some hf _ scn scn (hnone h)
  · intro adds ht i e he hname
    subst ht
    obtain ⟨hb, hn⟩ := section_table_of_buckets hf adds
    have hi : i = hf scn.name := by rw [← hb i e he, hname]
    subst hi
    cases h : section_find hf (section_table_of hf adds) scn.name with
    | none =>
      have := List.find?_eq_none.mp h e he
      simp [hname] at this
    | some r =>
      have hr : r ∈ (section_table_of hf adds).section_hash (hf scn.name) :=
        List.mem_of_find?_eq_some h
      have hrn : r.name = scn.name := by
        have := List.find?_some h
        simpa using this
      have : r = e :=
        List.inj_on_of_nodup_map (hn (hf scn.name)) hr he (by rw [hrn, hname])
      subst this
      exact ⟨rfl, (hsome r h).1⟩

theorem section_add_first_wins_witness :
    section_find hash_len4 (section_table_of hash_len4 [scn_text, scn_data]) scn_text2.name
        = some scn_text ∧
      section_add hash_len4 (section_table_of hash_len4 [scn_text, scn_data]) scn_text2
        = section_table_of hash_len4 [scn_text, scn_data] :=
  (section_add_first_wins hash_len4 (section_table_of hash_len4 [scn_text, scn_data])
    scn_text2).2.2.2 [scn_text, scn_data] rfl (hash_len4 ".text") scn_text (by decide) rfl

/-- C14: in every table built from `section_table_init` by `section_add`
calls, every stored section sits in the bucket `section_hashfn` selects for
its own name, no bucket holds a name twice, and two stored sections with
equal names are one and the same entry of one bucket. -/
theorem section_table_of_invariant {n : Nat} (hf : String → Fin n) (adds : List section_) :
    (∀ i, ∀ s ∈ (section_table_of hf adds).section_hash i, hf s.name = i) ∧
      (∀ i, (((section_table_of hf adds).section_hash i).map (fun s => s.name)).Nodup) ∧
      (∀ i j s1 s2, s1 ∈ (section_table_of hf adds).section_hash i →
        s2 ∈ (section_table_of hf adds).section_hash j → s1.name = s2.name →
        i = j ∧ s1 = s2) := by
  obtain ⟨hb, hn⟩ := section_table_of_buckets hf adds
  refine ⟨hb, hn, ?_⟩
  intro i j s1 s2 h1 h2 hname
  have hij : i = j := by rw [← hb i s1 h1, ← hb j s2 h2, hname]
  subst hij
  exact ⟨rfl, List.inj_on_of_nodup_map (hn i) h1 h2 hname⟩

/-- C15: `section_add hf t scn` does not disturb other names: for every table
and every name other than `scn`'s, `section_find` returns after the add what
it returned before, whichever bucket the name hashes to. -/
theorem section_add_frame {n : Nat} (hf : String → Fin n) (t : section_table n)
    (scn : section_) (m : String) (hm : m ≠ scn.name) :
    section_find hf (section_add hf t scn) m = section_find hf t m := by
  rw [section_find_add, if_neg (fun h => hm h.2.symm)]

theorem section_add_frame_witness :
    hash_len4 ".text" = hash_len4 scn_data.name ∧
      section_find hash_len4
          (section_add hash_len4 (section_table_of hash_len4 [scn_text]) scn_data) ".text"
        = section_find hash_len4 (section_table_of hash_len4 [scn_text]) ".text" :=
  ⟨by decide,
    section_add_frame hash_len4 (section_table_of hash_len4 [scn_text]) scn_data ".text"
      (by decide)⟩

/-- C16: `section_init` leaves in the object exactly the given name, index
and header, at the same address; both list heads point at themselves in both
directions (empty lists) and both pointers of the hash node are `NULL` (the
node is on no chain). -/
theorem section_init_sets (s : section_) (name : String) (idx : Int) (shdr : Elf_Shdr) :
    (section_init s name idx shdr).1 = ⟨s.addr, name, idx, shdr⟩ ∧
      (section_init s name idx shdr).2.sections
        = ⟨⟨s.addr, .sections⟩, ⟨s.addr, .sections⟩⟩ ∧
      list_empty ⟨s.addr, .sections⟩ (section_init s name idx shdr).2.sections = true ∧
      (section_init s name idx shdr).2.segment_entry
        = ⟨⟨s.addr, .segment_entry⟩, ⟨s.addr, .segment_entry⟩⟩ ∧
      list_empty ⟨s.addr, .segment_entry⟩ (section_init s name idx shdr).2.segment_entry
        = true ∧
      (section_init s name idx shdr).2.section_hash = ⟨none, none⟩ ∧
      hlist_unhashed (section_init s name idx shdr).2.section_hash = true := by
  refine ⟨rfl, rfl, ?_, rfl, ?_, rfl, rfl⟩
  · simp [section_init, INIT_LIST_HEAD, list_empty]
  · simp [section_init, INIT_LIST_HEAD, list_empty]

end Libbf
